import Mathlib

/-
Verification of the analytics engine of the on-air repository.

The analytics module is a set of pure functions over an in-memory list of
play-event entries.  Timestamps are modelled as integers: milliseconds since
the Unix epoch (the JS code parses `entry.ts` with `new Date(...)` and only
ever compares instants or decomposes them into calendar fields).  The host
JavaScript environment is modelled by a `Clock`: the sampled wall-clock
instant `nowMs` and a fixed local-time offset `offset` in milliseconds
(a fixed-offset zone; `Date#getDay`, `Date#getHours`, `setHours(0,0,0,0)`
etc. are derived from it).  All integer divisions below are by positive
constants, where Lean's `Int` division/modulo coincide with the floor
division JavaScript's `Math.floor` and `Date` arithmetic perform.

JS collection semantics used by the source and reproduced here:
  * `Map` iterates in key-insertion order; `set` of an existing key updates
    the value in place, keeping its position (`bump` / `countsOf`);
  * `Set` keeps insertion order and uniqueness (`firstSeen`);
  * `Array.prototype.sort` is stable (`sortDesc` / `sortAscStr` are stable
    insertion sorts for the two comparators the source uses);
  * `Array.prototype.slice(0, end)` with a negative `end` counts from the
    end of the array (`jsSliceTo`);
  * array indexing out of range yields `undefined`, modelled as `none`.
-/

def msPerMinute : Int := 60000

def msPerHour : Int := 3600000

def msPerDay : Int := 86400000

/-- The host environment: the wall clock sampled by `new Date()` and the
fixed local-time offset (local time = UTC instant + offset). -/
structure Clock where
  nowMs : Int
  offset : Int
deriving DecidableEq

/-- Milliseconds since epoch expressed on the local-time axis. -/
def localMs (c : Clock) (ts : Int) : Int := ts + c.offset

/-- `Date#getDay`: native day of week, Sunday = 0 .. Saturday = 6, in local
time.  Day 0 of the epoch (1970-01-01) was a Thursday (native day 4). -/
def getDay (c : Clock) (ts : Int) : Int :=
  (localMs c ts / msPerDay + 4) % 7

/-- `Date#getHours`: hour of day 0-23 in local time. -/
def getHours (c : Clock) (ts : Int) : Int :=
  localMs c ts / msPerHour % 24

/-- `setHours(0,0,0,0)`: truncate an instant to the start of its local day. -/
def startOfLocalDay (c : Clock) (ts : Int) : Int :=
  (localMs c ts / msPerDay) * msPerDay - c.offset

/-- Proleptic-Gregorian civil date (year, month 1-12, day 1-31) of a day
number counted from 1970-01-01; the standard days-to-civil algorithm the
host `Date` implements. -/
def civilFromDays (z0 : Int) : Int × Int × Int :=
  let z := z0 + 719468
  let era := z / 146097
  let doe := z - era * 146097
  let yoe := (doe - doe / 1460 + doe / 36524 - doe / 146096) / 365
  let y := yoe + era * 400
  let doy := doe - (365 * yoe + yoe / 4 - yoe / 100)
  let mp := (5 * doy + 2) / 153
  let d := doy - (153 * mp + 2) / 5 + 1
  let m := if mp < 10 then mp + 3 else mp - 9
  (if m ≤ 2 then y + 1 else y, m, d)

/-- Day number from a civil date; linear in `d`, so an out-of-range day of
month rolls over exactly as the host `Date#setMonth` does. -/
def daysFromCivil (y m d : Int) : Int :=
  let y' := if m ≤ 2 then y - 1 else y
  let era := y' / 400
  let yoe := y' - era * 400
  let mp := if m > 2 then m - 3 else m + 9
  let doy := (153 * mp + 2) / 5 + d - 1
  let doe := yoe * 365 + yoe / 4 - yoe / 100 + doy
  era * 146097 + doe - 719468

/-- `d.setMonth(d.getMonth() - k)` on a copy of the instant `ts`, in the
fixed-offset model: shift the local civil date back `k` calendar months
keeping the day of month (rolling over when it does not exist) and the
time of day. -/
def shiftMonthsBack (c : Clock) (ts : Int) (k : Int) : Int :=
  let lms := localMs c ts
  let days := lms / msPerDay
  let tod := lms - days * msPerDay
  let ymd := civilFromDays days
  let total := ymd.1 * 12 + (ymd.2.1 - 1) - k
  daysFromCivil (total / 12) (total % 12 + 1) ymd.2.2 * msPerDay + tod - c.offset

/-- `d.setFullYear(d.getFullYear() - k)`: shift the local civil date back
`k` calendar years, keeping month, day of month and time of day. -/
def shiftYearsBack (c : Clock) (ts : Int) (k : Int) : Int :=
  let lms := localMs c ts
  let days := lms / msPerDay
  let tod := lms - days * msPerDay
  let ymd := civilFromDays days
  daysFromCivil (ymd.1 - k) ymd.2.1 ymd.2.2 * msPerDay + tod - c.offset

/-- One play event (src/unnamed/part_000 data model): artist, song, and the
instant its ISO timestamp string denotes. -/
structure Entry where
  artist : String
  song : String
  ts : Int
deriving DecidableEq

/-- `filterByDateRange(entries, startDate, endDate)`: keep entries with
`ts >= startDate && ts <= endDate` (source lines 131-136). -/
def filterByDateRange (entries : List Entry) (startDate endDate : Int) : List Entry :=
  entries.filter fun entry => decide (startDate ≤ entry.ts ∧ entry.ts ≤ endDate)

/-- `getStartOfISOWeek(date)` (source lines 143-150): move back to the
Monday of the week of `ts` and truncate to start of (local) day. -/
def getStartOfISOWeek (c : Clock) (ts : Int) : Int :=
  let day := getDay c ts
  let back := if day = 0 then 6 else day - 1
  startOfLocalDay c ts - back * msPerDay

/-- `getEndOfISOWeek(date)` (source lines 157-163): Sunday 23:59:59.999 of
the same week. -/
def getEndOfISOWeek (c : Clock) (ts : Int) : Int :=
  getStartOfISOWeek c ts + 6 * msPerDay + (msPerDay - 1)

/-- `getCurrentWeekData(entries)` (source lines 170-175). -/
def getCurrentWeekData (c : Clock) (entries : List Entry) : List Entry :=
  filterByDateRange entries (getStartOfISOWeek c c.nowMs) (getEndOfISOWeek c c.nowMs)

/-- `getLastNDays(entries, days)` (source lines 183-190): from the start of
the local day `days` days before now, through now. -/
def getLastNDays (c : Clock) (entries : List Entry) (days : Int) : List Entry :=
  filterByDateRange entries (startOfLocalDay c (c.nowMs - days * msPerDay)) c.nowMs

/-- `filterByTimePeriod(entries, period)` (source lines 12-50).  The only
falsy string is the empty one, so `!period` is `period = ""`. -/
def filterByTimePeriod (c : Clock) (entries : List Entry) (period : String) : List Entry :=
  if period = "all" ∨ period = "" then entries
  else if period = "thisweek" then getCurrentWeekData c entries
  else if period = "week" then
    entries.filter fun entry => decide (c.nowMs - 7 * msPerDay ≤ entry.ts)
  else if period = "month" then
    entries.filter fun entry => decide (shiftMonthsBack c c.nowMs 1 ≤ entry.ts)
  else if period = "3months" then
    entries.filter fun entry => decide (shiftMonthsBack c c.nowMs 3 ≤ entry.ts)
  else if period = "year" then
    entries.filter fun entry => decide (shiftYearsBack c c.nowMs 1 ≤ entry.ts)
  else entries

/-- JS `Map#set(k, (get(k) || 0) + 1)`: update the entry for `k` in place
(insertion order is kept), appending `(k, 1)` when `k` is new. -/
def bump {K : Type} [DecidableEq K] : List (K × Nat) → K → List (K × Nat)
  | [], k => [(k, 1)]
  | (k', c) :: rest, k =>
    if k' = k then (k', c + 1) :: rest else (k', c) :: bump rest k

/-- Occurrence counts of a key list accumulated into a JS `Map`, as the
grouping loops of `getTopSongs` / `getTopArtists` / `getHourlyPlayCounts`
build it: association list in first-seen key order. -/
def countsOf {K : Type} [DecidableEq K] (ks : List K) : List (K × Nat) :=
  ks.foldl bump []

/-- JS `Set` accumulation: the distinct elements of `ks` in first-seen
order. -/
def firstSeen {K : Type} [DecidableEq K] (ks : List K) : List K :=
  ks.foldl (fun acc k => if k ∈ acc then acc else acc ++ [k]) []

/-- The grouping key of `getTopSongs` / `getUniqueSongCount`:
`` `${artist}|||${song}` `` (source lines 62, 103). -/
def songKey (e : Entry) : String :=
  e.artist ++ "|||" ++ e.song

/-- Split off the text before the first occurrence of `sep` (and the rest
after it), or `none` when `sep` does not occur. -/
def findSplit (sep : List Char) : List Char → Option (List Char × List Char)
  | [] => none
  | ch :: rest =>
    if sep.isPrefixOf (ch :: rest) then some ([], (ch :: rest).drop sep.length)
    else
      match findSplit sep rest with
      | none => none
      | some (b, a) => some (ch :: b, a)

/-- Fuelled worker for `jsSplit`; every found separator removes at least one
character, so `text.length + 1` units of fuel suffice. -/
def splitAllAux (sep : List Char) : Nat → List Char → List (List Char)
  | 0, t => [t]
  | fuel + 1, t =>
    match findSplit sep t with
    | none => [t]
    | some (b, a) => b :: splitAllAux sep fuel a

/-- JS `String.prototype.split` with a non-empty separator string. -/
def jsSplit (s sep : String) : List String :=
  (splitAllAux sep.data (s.data.length + 1) s.data).map fun l => ⟨l⟩

/-- An element of the `getTopSongs` result: `{artist, song, count}`. -/
structure RankedSong where
  artist : String
  song : String
  count : Nat
deriving DecidableEq

/-- `key.split('|||')` destructured as `[artist, song]`
(source line 68); missing components are `undefined`, modelled as `""`
(never the case for keys built by `songKey`). -/
def mkRankedSong (key : String) (count : Nat) : RankedSong :=
  let parts := jsSplit key "|||"
  { artist := (parts.get? 0).getD "", song := (parts.get? 1).getD "", count := count }

/-- Stable insertion into a list sorted by `f` descending; an element is
placed before the first element whose `f` is less than or equal to its own,
so ties keep their original relative order, exactly as the stable JS
`sort((a, b) => b.count - a.count)` does. -/
def insertDesc {α : Type} (f : α → Nat) (x : α) : List α → List α
  | [] => [x]
  | y :: ys => if f y ≤ f x then x :: y :: ys else y :: insertDesc f x ys

/-- Stable sort by `f` descending (JS `sort((a, b) => b.count - a.count)`). -/
def sortDesc {α : Type} (f : α → Nat) (l : List α) : List α :=
  l.foldr (insertDesc f) []

/-- JS `Array.prototype.slice(0, e)`: a negative `e` counts back from the
end of the array; the result is clamped to the array. -/
def jsSliceTo {α : Type} (l : List α) (e : Int) : List α :=
  if e < 0 then l.take ((l.length : Int) + e).toNat else l.take e.toNat

/-- The song groups of `getTopSongs` as mapped from the counting `Map`
before sorting and slicing (source lines 66-70): one ranked record per
distinct key, in first-seen key order. -/
def rankedSongs (entries : List Entry) : List RankedSong :=
  (countsOf (entries.map songKey)).map fun p => mkRankedSong p.1 p.2

/-- `getTopSongs(entries, limit)` (source lines 58-73). -/
def getTopSongs (entries : List Entry) (limit : Int) : List RankedSong :=
  jsSliceTo (sortDesc (fun r => r.count) (rankedSongs entries)) limit

/-- An element of the `getTopArtists` result: `{artist, count}`. -/
structure RankedArtist where
  artist : String
  count : Nat
deriving DecidableEq

/-- The artist groups of `getTopArtists` before sorting and slicing
(source lines 88-89), in first-seen key order. -/
def rankedArtists (entries : List Entry) : List RankedArtist :=
  (countsOf (entries.map fun e => e.artist)).map fun p =>
    { artist := p.1, count := p.2 : RankedArtist }

/-- `getTopArtists(entries, limit)` (source lines 81-92). -/
def getTopArtists (entries : List Entry) (limit : Int) : List RankedArtist :=
  jsSliceTo (sortDesc (fun r => r.count) (rankedArtists entries)) limit

/-- `getUniqueSongCount(entries)` (source lines 99-107): size of the JS
`Set` of concatenated keys. -/
def getUniqueSongCount (entries : List Entry) : Nat :=
  (firstSeen (entries.map songKey)).length

/-- `getUniqueArtistCount(entries)` (source lines 114-122). -/
def getUniqueArtistCount (entries : List Entry) : Nat :=
  (firstSeen (entries.map fun e => e.artist)).length

/-- Zero-padded two-digit rendering of a calendar field. -/
def pad2 (n : Int) : String :=
  if n < 10 then "0" ++ toString n else toString n

/-- Zero-padded four-digit rendering of a year. -/
def pad4 (n : Int) : String :=
  if n < 10 then "000" ++ toString n
  else if n < 100 then "00" ++ toString n
  else if n < 1000 then "0" ++ toString n
  else toString n

/-- `ts.toISOString().slice(0, 13)` (source line 204): the UTC hour bucket
key, format `"YYYY-MM-DDTHH"`. -/
def hourKey (ts : Int) : String :=
  let hn := ts / msPerHour
  let days := hn / 24
  let h := hn - days * 24
  let ymd := civilFromDays days
  pad4 ymd.1 ++ "-" ++ pad2 ymd.2.1 ++ "-" ++ pad2 ymd.2.2 ++ "T" ++ pad2 h

/-- An element of the `getHourlyPlayCounts` result: `{hour, count}`. -/
structure HourBucket where
  hour : String
  count : Nat
deriving DecidableEq

/-- Lexicographic comparison of character lists (true when the first is not
greater); structural counterpart of the string order `localeCompare`
realises on these ASCII keys. -/
def charListLe : List Char → List Char → Bool
  | [], _ => true
  | _ :: _, [] => false
  | x :: xs, y :: ys =>
    if x < y then true else if y < x then false else charListLe xs ys

/-- String comparison `a.localeCompare(b) <= 0` (code-unit lexicographic
order on these keys). -/
def strLe (a b : String) : Bool :=
  charListLe a.data b.data

/-- Stable insertion into a list sorted ascending by the string key `g`;
ties keep their original relative order, as the stable JS
`sort((a, b) => a.hour.localeCompare(b.hour))` does (locale comparison
coincides with code-unit order on these ASCII keys). -/
def insertAscStr {α : Type} (g : α → String) (x : α) : List α → List α
  | [] => [x]
  | y :: ys => if strLe (g x) (g y) then x :: y :: ys else y :: insertAscStr g x ys

/-- Stable sort ascending by a string key. -/
def sortAscStr {α : Type} (g : α → String) (l : List α) : List α :=
  l.foldr (insertAscStr g) []

/-- `getHourlyPlayCounts(entries, days)` (source lines 198-212). -/
def getHourlyPlayCounts (c : Clock) (entries : List Entry) (days : Int) : List HourBucket :=
  let lastWeek := getLastNDays c entries days
  sortAscStr (fun b => b.hour)
    ((countsOf (lastWeek.map fun e => hourKey e.ts)).map fun p =>
      { hour := p.1, count := p.2 : HourBucket })

/-- `row[h]++` on one matrix row; indices out of range leave the row
unchanged (never the case for the 7x24 matrix). -/
def bumpAt : List Nat → Nat → List Nat
  | [], _ => []
  | x :: xs, 0 => (x + 1) :: xs
  | x :: xs, n + 1 => x :: bumpAt xs n

/-- `matrix[d][h]++`. -/
def bumpCell : List (List Nat) → Nat → Nat → List (List Nat)
  | [], _, _ => []
  | row :: rest, 0, h => bumpAt row h :: rest
  | row :: rest, n + 1, h => row :: bumpCell rest n h

/-- The Monday-indexed day of week of an entry: `(date.getDay() + 6) % 7`
(source line 225). -/
def dayIndexOf (c : Clock) (ts : Int) : Nat :=
  ((getDay c ts + 6) % 7).toNat

/-- The local hour of an entry, as a cell index. -/
def hourOf (c : Clock) (ts : Int) : Nat :=
  (getHours c ts).toNat

/-- `generateHeatmapData(entries)` (source lines 219-231). -/
def generateHeatmapData (c : Clock) (entries : List Entry) : List (List Nat) :=
  entries.foldl (fun m e => bumpCell m (dayIndexOf c e.ts) (hourOf c e.ts))
    (List.replicate 7 (List.replicate 24 0))

/-- Read one cell of a heatmap matrix (0 outside the matrix). -/
def cellAt (m : List (List Nat)) (d h : Nat) : Nat :=
  (((m.get? d).getD []).get? h).getD 0

/-- Sum of all cells of a heatmap matrix. -/
def matrixSum (m : List (List Nat)) : Nat :=
  (m.map fun row => row.sum).sum

/-- `getLatestEntry(entries)` (source lines 238-248): `null` for an absent
or empty collection, else `reduce` with a strict greater-than fold. -/
def getLatestEntry (entries : Option (List Entry)) : Option Entry :=
  match entries with
  | none => none
  | some [] => none
  | some (e :: rest) =>
    some (rest.foldl (fun latest current =>
      if latest.ts < current.ts then current else latest) e)

/-- `formatTimeAgo(timestamp)` (source lines 255-278); all three deltas are
floor divisions of the millisecond difference. -/
def formatTimeAgo (c : Clock) (ts : Int) : String :=
  let diffMs := c.nowMs - ts
  let diffMins := diffMs / msPerMinute
  let diffHours := diffMs / msPerHour
  let diffDays := diffMs / msPerDay
  if diffMins < 1 then "Just now"
  else if diffMins = 1 then "1 minute ago"
  else if diffMins < 60 then toString diffMins ++ " minutes ago"
  else if diffHours = 1 then "1 hour ago"
  else if diffHours < 24 then toString diffHours ++ " hours ago"
  else if diffDays = 1 then "1 day ago"
  else toString diffDays ++ " days ago"

/-- The day-name table of `getDayName` (source line 301). -/
def dayNames : List String :=
  ["Mon", "Tue", "Wed", "Thu", "Fri", "Sat", "Sun"]

/-- `getDayName(dayIndex)` (source lines 300-303): JS array indexing, which
yields the absent value `undefined` (modelled as `none`) outside 0-6. -/
def getDayName (dayIndex : Int) : Option String :=
  if dayIndex < 0 then none else dayNames.get? dayIndex.toNat

/-
Supporting lemmas.
-/

theorem lex_cons_iff' {a b : Char} {l1 l2 : List Char} :
    List.Lex (· < ·) (a :: l1) (b :: l2) ↔ a < b ∨ (a = b ∧ List.Lex (· < ·) l1 l2) := by
  constructor
  · intro h
    cases h with
    | cons h => exact Or.inr ⟨rfl, h⟩
    | rel h => exact Or.inl h
  · rintro (h | ⟨rfl, h⟩)
    · exact List.Lex.rel h
    · exact List.Lex.cons h

theorem charListLe_iff : ∀ l1 l2 : List Char, charListLe l1 l2 = true ↔ ¬ l2 < l1
  | [], l2 => by
    constructor
    · intro _ h
      cases h
    · intro _
      rfl
  | x :: xs, [] => by
    constructor
    · intro h
      cases h
    · intro h
      exact absurd (List.nil_lt_cons x xs) h
  | x :: xs, y :: ys => by
    show (if x < y then true else if y < x then false else charListLe xs ys) = true ↔ _
    have hlex : (y :: ys : List Char) < x :: xs ↔ y < x ∨ (y = x ∧ ys < xs) := lex_cons_iff'
    rcases lt_trichotomy x y with hxy | hxy | hxy
    · rw [if_pos hxy]
      constructor
      · intro _ h
        rcases hlex.mp h with h' | ⟨heq, -⟩
        · exact absurd hxy (asymm h')
        · rw [heq] at hxy
          exact absurd hxy (lt_irrefl x)
      · intro _
        rfl
    · subst hxy
      rw [if_neg (lt_irrefl x), if_neg (lt_irrefl x), charListLe_iff xs ys, hlex]
      simp [lt_irrefl]
    · rw [if_neg (asymm hxy), if_pos hxy]
      constructor
      · intro h
        exact absurd h (by simp)
      · intro h
        exact absurd (hlex.mpr (Or.inl hxy)) h

theorem strLe_iff (a b : String) : strLe a b = true ↔ a ≤ b := by
  rw [String.le_iff_toList_le]
  show charListLe a.data b.data = true ↔ a.data ≤ b.data
  rw [← not_lt]
  exact charListLe_iff a.data b.data

theorem strLe_false_iff (a b : String) : strLe a b = false ↔ b < a := by
  rw [← Bool.not_eq_true, not_iff_comm, strLe_iff, not_lt]

theorem perm_insertAscStr {α : Type} (g : α → String) (x : α) :
    ∀ l : List α, (insertAscStr g x l).Perm (x :: l)
  | [] => List.Perm.refl _
  | y :: ys => by
    rw [insertAscStr]
    split
    · exact List.Perm.refl _
    · exact ((perm_insertAscStr g x ys).cons y).trans (List.Perm.swap x y ys)

theorem perm_sortAscStr {α : Type} (g : α → String) :
    ∀ l : List α, (sortAscStr g l).Perm l
  | [] => List.Perm.refl _
  | x :: xs => by
    rw [sortAscStr, List.foldr_cons]
    exact (perm_insertAscStr g x _).trans ((perm_sortAscStr g xs).cons x)

theorem pairwise_insertAscStr {α : Type} (g : α → String) (x : α) :
    ∀ l : List α, (l.Pairwise fun a b => g a ≤ g b) →
      (insertAscStr g x l).Pairwise fun a b => g a ≤ g b
  | [], _ => by simp [insertAscStr]
  | y :: ys, h => by
    rw [insertAscStr]
    rcases List.pairwise_cons.mp h with ⟨hy, hys⟩
    split
    · rename_i hxy
      refine List.pairwise_cons.mpr ⟨?_, h⟩
      intro z hz
      have hxy' : g x ≤ g y := (strLe_iff _ _).mp hxy
      rcases List.mem_cons.mp hz with rfl | hz'
      · exact hxy'
      · exact le_trans hxy' (hy z hz')
    · rename_i hxy
      have hyx : g y < g x :=
        (strLe_false_iff _ _).mp (Bool.not_eq_true _ ▸ hxy)
      refine List.pairwise_cons.mpr ⟨?_, pairwise_insertAscStr g x ys hys⟩
      intro z hz
      rcases List.mem_cons.mp ((perm_insertAscStr g x ys).mem_iff.mp hz) with rfl | hz'
      · exact le_of_lt hyx
      · exact hy z hz'

theorem pairwise_sortAscStr {α : Type} (g : α → String) :
    ∀ l : List α, (sortAscStr g l).Pairwise fun a b => g a ≤ g b
  | [] => List.Pairwise.nil
  | x :: xs => by
    rw [sortAscStr, List.foldr_cons]
    exact pairwise_insertAscStr g x _ (pairwise_sortAscStr g xs)

theorem perm_insertDesc {α : Type} (f : α → Nat) (x : α) :
    ∀ l : List α, (insertDesc f x l).Perm (x :: l)
  | [] => List.Perm.refl _
  | y :: ys => by
    rw [insertDesc]
    split
    · exact List.Perm.refl _
    · exact ((perm_insertDesc f x ys).cons y).trans (List.Perm.swap x y ys)

theorem perm_sortDesc {α : Type} (f : α → Nat) :
    ∀ l : List α, (sortDesc f l).Perm l
  | [] => List.Perm.refl _
  | x :: xs => by
    rw [sortDesc, List.foldr_cons]
    exact (perm_insertDesc f x _).trans ((perm_sortDesc f xs).cons x)

theorem pairwise_insertDesc {α : Type} (f : α → Nat) (x : α) :
    ∀ l : List α, (l.Pairwise fun a b => f b ≤ f a) →
      (insertDesc f x l).Pairwise fun a b => f b ≤ f a
  | [], _ => by simp [insertDesc]
  | y :: ys, h => by
    rw [insertDesc]
    rcases List.pairwise_cons.mp h with ⟨hy, hys⟩
    split
    · rename_i hxy
      refine List.pairwise_cons.mpr ⟨?_, h⟩
      intro z hz
      rcases List.mem_cons.mp hz with rfl | hz'
      · exact hxy
      · exact le_trans (hy z hz') hxy
    · rename_i hxy
      refine List.pairwise_cons.mpr ⟨?_, pairwise_insertDesc f x ys hys⟩
      intro z hz
      rcases List.mem_cons.mp ((perm_insertDesc f x ys).mem_iff.mp hz) with rfl | hz'
      · exact le_of_lt (Nat.lt_of_not_le hxy)
      · exact hy z hz'

theorem pairwise_sortDesc {α : Type} (f : α → Nat) :
    ∀ l : List α, (sortDesc f l).Pairwise fun a b => f b ≤ f a
  | [] => List.Pairwise.nil
  | x :: xs => by
    rw [sortDesc, List.foldr_cons]
    exact pairwise_insertDesc f x _ (pairwise_sortDesc f xs)

theorem filter_insertDesc {α : Type} (f : α → Nat) (n : Nat) (x : α) :
    ∀ l : List α,
      (insertDesc f x l).filter (fun a => f a == n) =
        if f x == n then x :: l.filter (fun a => f a == n)
        else l.filter (fun a => f a == n)
  | [] => by
    simp only [insertDesc, List.filter_cons, List.filter_nil]
  | y :: ys => by
    rw [insertDesc]
    split
    · rw [List.filter_cons]
    · rename_i hxy
      have hyx : f x < f y := Nat.lt_of_not_le hxy
      rw [List.filter_cons, List.filter_cons, filter_insertDesc f n x ys]
      by_cases hx : f x == n
      · have hy : ¬ (f y == n) = true := by
          rw [Nat.beq_eq_true_eq] at hx ⊢
          omega
        simp only [hx, hy, if_true, if_false]
        simp
      · simp only [hx, if_false]
        split <;> rfl

theorem filter_sortDesc {α : Type} (f : α → Nat) (n : Nat) :
    ∀ l : List α,
      (sortDesc f l).filter (fun a => f a == n) = l.filter (fun a => f a == n)
  | [] => rfl
  | x :: xs => by
    have ih := filter_sortDesc f n xs
    rw [sortDesc] at ih
    rw [sortDesc, List.foldr_cons, filter_insertDesc, List.filter_cons, ih]

theorem mem_foldl_firstSeen {K : Type} [DecidableEq K] (x : K) :
    ∀ (ks acc : List K),
      (x ∈ ks.foldl (fun acc k => if k ∈ acc then acc else acc ++ [k]) acc ↔
        x ∈ acc ∨ x ∈ ks)
  | [], acc => by simp
  | k :: ks, acc => by
    rw [List.foldl_cons, mem_foldl_firstSeen x ks]
    by_cases hk : k ∈ acc
    · rw [if_pos hk]
      constructor
      · rintro (h | h)
        · exact Or.inl h
        · exact Or.inr (List.mem_cons_of_mem k h)
      · rintro (h | h)
        · exact Or.inl h
        · rcases List.mem_cons.mp h with rfl | h'
          · exact Or.inl hk
          · exact Or.inr h'
    · rw [if_neg hk]
      simp only [List.mem_append, List.mem_singleton, List.mem_cons]
      tauto

theorem mem_firstSeen {K : Type} [DecidableEq K] (x : K) (ks : List K) :
    x ∈ firstSeen ks ↔ x ∈ ks := by
  rw [firstSeen, mem_foldl_firstSeen]
  simp

theorem nodup_foldl_firstSeen {K : Type} [DecidableEq K] :
    ∀ (ks acc : List K), acc.Nodup →
      (ks.foldl (fun acc k => if k ∈ acc then acc else acc ++ [k]) acc).Nodup
  | [], _, h => h
  | k :: ks, acc, h => by
    rw [List.foldl_cons]
    by_cases hk : k ∈ acc
    · rw [if_pos hk]
      exact nodup_foldl_firstSeen ks acc h
    · rw [if_neg hk]
      refine nodup_foldl_firstSeen ks _ ?_
      simp [List.nodup_append, h, hk]

theorem nodup_firstSeen {K : Type} [DecidableEq K] (ks : List K) :
    (firstSeen ks).Nodup :=
  nodup_foldl_firstSeen ks [] List.nodup_nil

theorem firstSeen_concat {K : Type} [DecidableEq K] (p : List K) (k : K) :
    firstSeen (p ++ [k]) =
      if k ∈ p then firstSeen p else firstSeen p ++ [k] := by
  rw [firstSeen, List.foldl_append]
  show (if k ∈ firstSeen p then firstSeen p else firstSeen p ++ [k]) = _
  by_cases hk : k ∈ p
  · rw [if_pos ((mem_firstSeen k p).mpr hk), if_pos hk]
  · rw [if_neg (fun h => hk ((mem_firstSeen k p).mp h)), if_neg hk]

theorem firstSeen_length {K : Type} [DecidableEq K] (ks : List K) :
    (firstSeen ks).length = ks.toFinset.card := by
  have h1 : (firstSeen ks).toFinset = ks.toFinset := by
    ext x
    simp [List.mem_toFinset, mem_firstSeen]
  rw [← h1, List.toFinset_card_of_nodup (nodup_firstSeen ks)]

theorem bump_map {K : Type} [DecidableEq K] (cf : K → Nat) (k0 : K) :
    ∀ fs : List K, fs.Nodup →
      bump (fs.map fun k => (k, cf k)) k0 =
        if k0 ∈ fs then fs.map (fun k => (k, if k = k0 then cf k + 1 else cf k))
        else (fs.map fun k => (k, cf k)) ++ [(k0, 1)]
  | [], _ => by simp [bump]
  | f :: fs, h => by
    rw [List.map_cons, bump]
    rcases List.nodup_cons.mp h with ⟨hf, hfs⟩
    by_cases hfk : f = k0
    · subst hfk
      rw [if_pos rfl, if_pos (List.mem_cons_self f fs), List.map_cons, if_pos rfl]
      congr 1
      apply List.map_congr_left
      intro x hx
      rw [if_neg]
      intro hxf
      rw [← hxf] at hf
      exact hf hx
    · rw [if_neg hfk, bump_map cf k0 fs hfs]
      by_cases hk : k0 ∈ fs
      · have : k0 ∈ f :: fs := List.mem_cons_of_mem f hk
        rw [if_pos hk, if_pos this, List.map_cons, if_neg hfk]
      · have : k0 ∉ f :: fs := by
          intro hmem
          rcases List.mem_cons.mp hmem with h' | h'
          · exact hfk h'.symm
          · exact hk h'
        rw [if_neg hk, if_neg this, List.cons_append]

theorem foldl_bump_eq {K : Type} [DecidableEq K] :
    ∀ (ks prev : List K),
      List.foldl bump ((firstSeen prev).map fun k => (k, prev.count k)) ks
        = (firstSeen (prev ++ ks)).map fun k => (k, (prev ++ ks).count k)
  | [], prev => by simp
  | k :: ks, prev => by
    rw [List.foldl_cons]
    have hstep : bump ((firstSeen prev).map fun x => (x, prev.count x)) k
        = (firstSeen (prev ++ [k])).map fun x => (x, (prev ++ [k]).count x) := by
      rw [bump_map _ _ _ (nodup_firstSeen prev), firstSeen_concat]
      by_cases hk : k ∈ prev
      · rw [if_pos ((mem_firstSeen k prev).mpr hk), if_pos hk]
        apply List.map_congr_left
        intro x hx
        have : (prev ++ [k]).count x = prev.count x + if k = x then 1 else 0 := by
          rw [List.count_append, List.count_singleton']
        rw [this]
        by_cases hxk : x = k
        · rw [if_pos hxk, if_pos hxk.symm]
        · rw [if_neg hxk, if_neg (fun h => hxk h.symm), Nat.add_zero]
      · rw [if_neg (fun h => hk ((mem_firstSeen k prev).mp h)), if_neg hk,
          List.map_append, List.map_singleton]
        congr 1
        · apply List.map_congr_left
          intro x hx
          have hxk : ¬ k = x := by
            intro h
            exact hk (h ▸ (mem_firstSeen x prev).mp hx)
          rw [List.count_append, List.count_singleton', if_neg hxk, Nat.add_zero]
        · rw [List.count_append, List.count_singleton', if_pos rfl,
            List.count_eq_zero_of_not_mem hk, Nat.zero_add]
    rw [hstep, foldl_bump_eq ks (prev ++ [k]), List.append_assoc, List.singleton_append]

theorem countsOf_eq {K : Type} [DecidableEq K] (ks : List K) :
    countsOf ks = (firstSeen ks).map fun k => (k, ks.count k) := by
  have h := foldl_bump_eq ks []
  simpa [countsOf, firstSeen] using h

theorem countsOf_fst {K : Type} [DecidableEq K] (ks : List K) :
    (countsOf ks).map Prod.fst = firstSeen ks := by
  rw [countsOf_eq, List.map_map]
  have hid : (Prod.fst ∘ fun k => (k, ks.count k)) = (id : K → K) := rfl
  rw [hid, List.map_id]

theorem countsOf_length {K : Type} [DecidableEq K] (ks : List K) :
    (countsOf ks).length = ks.toFinset.card := by
  rw [countsOf_eq, List.length_map, firstSeen_length]

theorem mem_countsOf {K : Type} [DecidableEq K] {ks : List K} {p : K × Nat}
    (hp : p ∈ countsOf ks) : p.2 = ks.count p.1 ∧ p.1 ∈ ks := by
  rw [countsOf_eq] at hp
  rcases List.mem_map.mp hp with ⟨k, hk, rfl⟩
  exact ⟨rfl, (mem_firstSeen k ks).mp hk⟩

theorem countsOf_mem_key {K : Type} [DecidableEq K] {ks : List K} {k : K}
    (hk : k ∈ ks) : (k, ks.count k) ∈ countsOf ks := by
  rw [countsOf_eq]
  exact List.mem_map.mpr ⟨k, (mem_firstSeen k ks).mpr hk, rfl⟩

theorem foldl_latest :
    ∀ (rest : List Entry) (acc : Entry),
      ∃ e l1 l2,
        rest.foldl (fun latest current =>
          if latest.ts < current.ts then current else latest) acc = e ∧
        acc :: rest = l1 ++ e :: l2 ∧
        (∀ x ∈ l1, x.ts < e.ts) ∧ (∀ x ∈ l2, x.ts ≤ e.ts)
  | [], acc => ⟨acc, [], [], rfl, rfl, by simp, by simp⟩
  | x :: xs, acc => by
    rw [List.foldl_cons]
    by_cases hx : acc.ts < x.ts
    · rw [if_pos hx]
      obtain ⟨e, l1, l2, he, hdec, h1, h2⟩ := foldl_latest xs x
      refine ⟨e, acc :: l1, l2, he, ?_, ?_, h2⟩
      · rw [List.cons_append, ← hdec]
      · intro z hz
        rcases List.mem_cons.mp hz with rfl | hz'
        · rcases l1 with _ | ⟨y, l1'⟩
          · rw [List.nil_append] at hdec
            injection hdec with hh _
            rw [← hh]
            exact hx
          · rw [List.cons_append] at hdec
            injection hdec with hh _
            have hy : y.ts < e.ts := h1 y (List.mem_cons_self y l1')
            have hx' : z.ts < y.ts := by
              rw [← hh]
              exact hx
            exact lt_trans hx' hy
        · exact h1 z hz'
    · rw [if_neg hx]
      obtain ⟨e, l1, l2, he, hdec, h1, h2⟩ := foldl_latest xs acc
      rcases l1 with _ | ⟨y, l1'⟩
      · rw [List.nil_append] at hdec
        injection hdec with hh ht
        refine ⟨e, [], x :: l2, he, ?_, by simp, ?_⟩
        · rw [List.nil_append, ← ht, ← hh]
        · intro z hz
          rcases List.mem_cons.mp hz with rfl | hz'
          · rw [← hh]
            exact le_of_not_lt hx
          · exact h2 z hz'
      · rw [List.cons_append] at hdec
        injection hdec with hh ht
        refine ⟨e, acc :: x :: l1', l2, he, ?_, ?_, h2⟩
        · rw [List.cons_append, List.cons_append, ht]
        · intro z hz
          have hy : y.ts < e.ts := h1 y (List.mem_cons_self y l1')
          have hacc : acc.ts < e.ts := by
            rw [hh]
            exact hy
          rcases List.mem_cons.mp hz with rfl | hz'
          · exact hacc
          rcases List.mem_cons.mp hz' with rfl | hz''
          · exact lt_of_le_of_lt (le_of_not_lt hx) hacc
          · exact h1 z (List.mem_cons_of_mem y hz'')

/-
Claim theorems.
-/

/-- Claim C1: `getDayName` yields the absent value (the OutOfRange outcome
of JS array indexing) for every integer index outside 0..6, and the
corresponding day name inside the range; in particular "Mon" at 0 and
"Sun" at 6. -/
theorem getDayName_spec :
    (∀ i : Int, i < 0 ∨ 6 < i → getDayName i = none) ∧
    getDayName 0 = some "Mon" ∧ getDayName 1 = some "Tue" ∧
    getDayName 2 = some "Wed" ∧ getDayName 3 = some "Thu" ∧
    getDayName 4 = some "Fri" ∧ getDayName 5 = some "Sat" ∧
    getDayName 6 = some "Sun" := by
  refine ⟨?_, rfl, rfl, rfl, rfl, rfl, rfl, rfl⟩
  intro i hi
  rcases hi with hi | hi
  · rw [getDayName, if_pos hi]
  · rw [getDayName, if_neg (by omega), List.get?_eq_none]
    have hlen : dayNames.length = 7 := rfl
    omega

/-- Witness for Claim C1 at the concrete out-of-range indices 7 and -1. -/
theorem getDayName_spec_witness :
    getDayName 7 = none ∧ getDayName (-1) = none :=
  ⟨getDayName_spec.1 7 (Or.inr (by decide)),
   getDayName_spec.1 (-1) (Or.inl (by decide))⟩

/-- Claim C10: for a timestamp strictly in the future the millisecond delta
is negative, its floored minute quotient is below 1, and `formatTimeAgo`
returns "Just now". -/
theorem formatTimeAgo_future (c : Clock) (ts : Int) (h : c.nowMs < ts) :
    formatTimeAgo c ts = "Just now" := by
  have hneg : c.nowMs - ts < 0 := by omega
  simp only [formatTimeAgo, msPerMinute]
  rw [if_pos (by omega)]

/-- Witness for Claim C10 at a concrete future timestamp. -/
theorem formatTimeAgo_future_witness :
    formatTimeAgo ⟨1000, 0⟩ 2000 = "Just now" :=
  formatTimeAgo_future ⟨1000, 0⟩ 2000 (by decide)

/-- Claim C7: `filterByTimePeriod` is the identity for the token "all", for
the empty (falsy, i.e. omitted) token, and for every unrecognized token. -/
theorem filterByTimePeriod_identity (c : Clock) (entries : List Entry) (p : String)
    (h : p = "all" ∨ p = "" ∨
      p ∉ ["all", "", "thisweek", "week", "month", "3months", "year"]) :
    filterByTimePeriod c entries p = entries := by
  rcases h with rfl | rfl | h
  · rw [filterByTimePeriod, if_pos (Or.inl rfl)]
  · rw [filterByTimePeriod, if_pos (Or.inr rfl)]
  · simp only [List.mem_cons, not_or] at h
    obtain ⟨h1, h2, h3, h4, h5, h6, h7, -⟩ := h
    rw [filterByTimePeriod, if_neg (not_or.mpr ⟨h1, h2⟩), if_neg h3, if_neg h4,
      if_neg h5, if_neg h6, if_neg h7]

/-- Witness for Claim C7 at a concrete unrecognized token. -/
theorem filterByTimePeriod_identity_witness :
    filterByTimePeriod ⟨0, 0⟩ [⟨"A", "X", 5⟩] "bogus" = [⟨"A", "X", 5⟩] :=
  filterByTimePeriod_identity ⟨0, 0⟩ [⟨"A", "X", 5⟩] "bogus"
    (Or.inr (Or.inr (by decide)))

/-- Claim C9: the filtering operations return a subsequence of the input
(relative order of kept entries preserved; the input itself is never
mutated, every function being pure), and `filterByDateRange` keeps exactly
the entries with `startDate ≤ ts` and `ts ≤ endDate`, inclusive on both
ends. -/
theorem filtering_frame_spec (c : Clock) (entries : List Entry)
    (startDate endDate days : Int) (p : String) :
    (filterByDateRange entries startDate endDate).Sublist entries ∧
    (∀ x, x ∈ filterByDateRange entries startDate endDate ↔
      x ∈ entries ∧ startDate ≤ x.ts ∧ x.ts ≤ endDate) ∧
    (getLastNDays c entries days).Sublist entries ∧
    (filterByTimePeriod c entries p).Sublist entries := by
  refine ⟨List.filter_sublist entries, ?_, List.filter_sublist entries, ?_⟩
  · intro x
    simp [filterByDateRange, List.mem_filter]
  · rw [filterByTimePeriod]
    split
    · exact List.Sublist.refl entries
    · split
      · exact List.filter_sublist entries
      · split
        · exact List.filter_sublist entries
        · split
          · exact List.filter_sublist entries
          · split
            · exact List.filter_sublist entries
            · split
              · exact List.filter_sublist entries
              · exact List.Sublist.refl entries

/-- Claim C5: `getLatestEntry` returns the null sentinel on an absent or
empty collection without failing; on a non-empty one it returns an entry
with maximal `ts`, namely the earliest-encountered one among the entries
sharing that maximum (everything before it in the list is strictly
smaller, everything after it no greater). -/
theorem getLatestEntry_spec :
    getLatestEntry none = none ∧ getLatestEntry (some []) = none ∧
    ∀ l : List Entry, l ≠ [] →
      ∃ e l1 l2, getLatestEntry (some l) = some e ∧ l = l1 ++ e :: l2 ∧
        (∀ x ∈ l, x.ts ≤ e.ts) ∧
        (∀ x ∈ l1, x.ts < e.ts) ∧ (∀ x ∈ l2, x.ts ≤ e.ts) := by
  refine ⟨rfl, rfl, ?_⟩
  intro l hl
  rcases l with _ | ⟨a, rest⟩
  · exact absurd rfl hl
  obtain ⟨e, l1, l2, he, hdec, h1, h2⟩ := foldl_latest rest a
  have hrun : getLatestEntry (some (a :: rest)) =
      some (rest.foldl (fun latest current =>
        if latest.ts < current.ts then current else latest) a) := rfl
  refine ⟨e, l1, l2, by rw [hrun, he], hdec, ?_, h1, h2⟩
  intro x hx
  rw [hdec] at hx
  rcases List.mem_append.mp hx with hx' | hx'
  · exact le_of_lt (h1 x hx')
  · rcases List.mem_cons.mp hx' with rfl | hx''
    · exact le_refl _
    · exact h2 x hx''

/-- Witness for Claim C5 at a concrete three-entry collection with a
duplicated maximal timestamp. -/
theorem getLatestEntry_spec_witness :
    ∃ e l1 l2,
      getLatestEntry (some [⟨"A", "X", 5⟩, ⟨"B", "Y", 9⟩, ⟨"C", "Z", 9⟩]) = some e ∧
      [⟨"A", "X", 5⟩, ⟨"B", "Y", 9⟩, ⟨"C", "Z", 9⟩] = l1 ++ e :: l2 ∧
      (∀ x ∈ [(⟨"A", "X", 5⟩ : Entry), ⟨"B", "Y", 9⟩, ⟨"C", "Z", 9⟩], x.ts ≤ e.ts) ∧
      (∀ x ∈ l1, x.ts < e.ts) ∧ (∀ x ∈ l2, x.ts ≤ e.ts) :=
  getLatestEntry_spec.2.2 [⟨"A", "X", 5⟩, ⟨"B", "Y", 9⟩, ⟨"C", "Z", 9⟩] (by decide)

theorem jsSliceTo_nil {α : Type} (e : Int) : jsSliceTo ([] : List α) e = [] := by
  rw [jsSliceTo]
  split <;> exact List.take_nil

theorem jsSliceTo_zero {α : Type} (l : List α) : jsSliceTo l 0 = [] := by
  rw [jsSliceTo, if_neg (lt_irrefl 0)]
  rfl

theorem jsSliceTo_take {α : Type} (l : List α) (e : Int) :
    ∃ k, jsSliceTo l e = l.take k := by
  rw [jsSliceTo]
  split
  · exact ⟨_, rfl⟩
  · exact ⟨_, rfl⟩

theorem jsSliceTo_sublist {α : Type} (l : List α) (e : Int) :
    (jsSliceTo l e).Sublist l := by
  obtain ⟨k, hk⟩ := jsSliceTo_take l e
  rw [hk]
  exact List.take_sublist k l

theorem rankedSongs_length (entries : List Entry) :
    (rankedSongs entries).length = (entries.map songKey).toFinset.card := by
  rw [rankedSongs, List.length_map, countsOf_length]

theorem rankedArtists_length (entries : List Entry) :
    (rankedArtists entries).length = (entries.map fun e => e.artist).toFinset.card := by
  rw [rankedArtists, List.length_map, countsOf_length]

/-- Claim C2 (corrected): empty input, or limit exactly 0, give an empty
result; for positive limit the result length is exactly the minimum of
the limit and the number of distinct grouping keys (so at most that
minimum, with all groups returned - up to order - when there are no more
groups than the limit); a negative limit instead drops the last |limit|
groups, per JS `slice` semantics. -/
theorem topN_limit_spec (entries : List Entry) (limit : Int) :
    (entries = [] → getTopSongs entries limit = [] ∧ getTopArtists entries limit = []) ∧
    (limit = 0 → getTopSongs entries limit = [] ∧ getTopArtists entries limit = []) ∧
    (0 < limit →
      (getTopSongs entries limit).length
        = min limit.toNat (entries.map songKey).toFinset.card ∧
      (getTopArtists entries limit).length
        = min limit.toNat (entries.map fun e => e.artist).toFinset.card ∧
      ((entries.map songKey).toFinset.card ≤ limit.toNat →
        (getTopSongs entries limit).Perm (rankedSongs entries)) ∧
      ((entries.map fun e => e.artist).toFinset.card ≤ limit.toNat →
        (getTopArtists entries limit).Perm (rankedArtists entries))) ∧
    (limit < 0 →
      (getTopSongs entries limit).length
        = (((entries.map songKey).toFinset.card : Int) + limit).toNat ∧
      (getTopArtists entries limit).length
        = (((entries.map fun e => e.artist).toFinset.card : Int) + limit).toNat) := by
  have hs : (sortDesc (fun r : RankedSong => r.count) (rankedSongs entries)).length
      = (entries.map songKey).toFinset.card := by
    rw [(perm_sortDesc _ _).length_eq, rankedSongs_length]
  have ha : (sortDesc (fun r : RankedArtist => r.count) (rankedArtists entries)).length
      = (entries.map fun e => e.artist).toFinset.card := by
    rw [(perm_sortDesc _ _).length_eq, rankedArtists_length]
  refine ⟨?_, ?_, ?_, ?_⟩
  · rintro rfl
    exact ⟨jsSliceTo_nil limit, jsSliceTo_nil limit⟩
  · rintro rfl
    exact ⟨jsSliceTo_zero _, jsSliceTo_zero _⟩
  · intro hpos
    have hnn : ¬ limit < 0 := by omega
    refine ⟨?_, ?_, ?_, ?_⟩
    · rw [getTopSongs, jsSliceTo, if_neg hnn, List.length_take, hs]
    · rw [getTopArtists, jsSliceTo, if_neg hnn, List.length_take, ha]
    · intro hcard
      rw [getTopSongs, jsSliceTo, if_neg hnn,
        List.take_of_length_le (by omega : _ ≤ limit.toNat)]
      exact perm_sortDesc _ _
    · intro hcard
      rw [getTopArtists, jsSliceTo, if_neg hnn,
        List.take_of_length_le (by omega : _ ≤ limit.toNat)]
      exact perm_sortDesc _ _
  · intro hneg
    constructor
    · rw [getTopSongs, jsSliceTo, if_pos hneg, List.length_take, hs]
      omega
    · rw [getTopArtists, jsSliceTo, if_pos hneg, List.length_take, ha]
      omega

/-- Witness for the corrected Claim C2 at limit 0 and at limit 1. -/
theorem topN_limit_spec_witness :
    getTopSongs [⟨"A", "X", 0⟩] 0 = [] ∧
    (getTopSongs [⟨"A", "X", 0⟩] 1).length
      = min (Int.toNat 1) (([⟨"A", "X", 0⟩] : List Entry).map songKey).toFinset.card :=
  ⟨((topN_limit_spec [⟨"A", "X", 0⟩] 0).2.1 rfl).1,
   ((topN_limit_spec [⟨"A", "X", 0⟩] 1).2.2.1 (by decide)).1⟩

/-- Counterexample to Claim C2 as stated: a negative limit does not give an
empty result; JS `slice(0, -1)` keeps all but the last group. -/
theorem topN_limit_counterexample :
    getTopSongs [⟨"A", "X", 0⟩, ⟨"B", "Y", 0⟩] (-1) = [⟨"A", "X", 1⟩] ∧
    getTopSongs [⟨"A", "X", 0⟩, ⟨"B", "Y", 0⟩] (-1) ≠ [] ∧
    getTopArtists [⟨"A", "X", 0⟩, ⟨"B", "Y", 0⟩] (-1) = [⟨"A", 1⟩] :=
  ⟨by decide, by decide, by decide⟩

theorem append_sep_inj {α : Type} (c : α) (cs : List α) :
    ∀ (l1 l2 r1 r2 : List α), c ∉ l1 → c ∉ l2 →
      l1 ++ c :: cs ++ r1 = l2 ++ c :: cs ++ r2 → l1 = l2 ∧ r1 = r2
  | [], [], r1, r2, _, _, h => by
    simp only [List.nil_append] at h
    injection h with _ h2
    exact ⟨rfl, (List.append_right_inj cs).mp h2⟩
  | [], y :: l2, r1, r2, _, h2, h => by
    simp only [List.nil_append, List.cons_append] at h
    injection h with hh _
    exact absurd (by rw [hh]; exact List.mem_cons_self y l2) h2
  | x :: l1, [], r1, r2, h1, _, h => by
    simp only [List.nil_append, List.cons_append] at h
    injection h with hh _
    exact absurd (by rw [← hh]; exact List.mem_cons_self x l1) h1
  | x :: l1, y :: l2, r1, r2, h1, h2, h => by
    simp only [List.cons_append] at h
    injection h with hh ht
    have hrec := append_sep_inj c cs l1 l2 r1 r2
      (fun hc => h1 (List.mem_cons_of_mem x hc))
      (fun hc => h2 (List.mem_cons_of_mem y hc)) ht
    refine ⟨?_, hrec.2⟩
    rw [hh, hrec.1]

theorem songKey_inj {a1 s1 a2 s2 : String}
    (h1 : ('|' : Char) ∉ a1.data) (h2 : ('|' : Char) ∉ a2.data)
    (he : a1 ++ "|||" ++ s1 = a2 ++ "|||" ++ s2) : a1 = a2 ∧ s1 = s2 := by
  have hd : a1.data ++ '|' :: ['|', '|'] ++ s1.data
      = a2.data ++ '|' :: ['|', '|'] ++ s2.data := by
    have hc := congrArg String.data he
    simpa [String.data_append, List.append_assoc] using hc
  obtain ⟨hA, hS⟩ := append_sep_inj '|' ['|', '|'] a1.data a2.data s1.data s2.data h1 h2 hd
  constructor
  · cases a1
    cases a2
    exact congrArg String.mk (by simpa using hA)
  · cases s1
    cases s2
    exact congrArg String.mk (by simpa using hS)

/-- Claim C3 (corrected): `getUniqueSongCount` counts the distinct
concatenated keys `artist ++ "|||" ++ song`, which can merge distinct
(artist, song) pairs when an artist contains the separator; whenever no
artist string contains the character '|', the count equals the number of
distinct (artist, song) pairs under exact string equality. -/
theorem getUniqueSongCount_spec (entries : List Entry)
    (h : ∀ e ∈ entries, ('|' : Char) ∉ e.artist.data) :
    getUniqueSongCount entries = (entries.map songKey).toFinset.card ∧
    getUniqueSongCount entries
      = (entries.map fun e => (e.artist, e.song)).toFinset.card := by
  have hc : getUniqueSongCount entries = (entries.map songKey).toFinset.card := by
    rw [getUniqueSongCount, firstSeen_length]
  refine ⟨hc, ?_⟩
  rw [hc]
  have himg : (entries.map songKey).toFinset
      = ((entries.map fun e => (e.artist, e.song)).toFinset).image
          (fun p : String × String => p.1 ++ "|||" ++ p.2) := by
    ext x
    simp only [List.mem_toFinset, List.mem_map, Finset.mem_image, songKey]
    constructor
    · rintro ⟨e, he, rfl⟩
      exact ⟨(e.artist, e.song), ⟨e, he, rfl⟩, rfl⟩
    · rintro ⟨p, ⟨e, he, rfl⟩, rfl⟩
      exact ⟨e, he, rfl⟩
  rw [himg, Finset.card_image_of_injOn]
  intro p hp q hq hpq
  rw [Finset.mem_coe, List.mem_toFinset, List.mem_map] at hp hq
  obtain ⟨e1, he1, rfl⟩ := hp
  obtain ⟨e2, he2, rfl⟩ := hq
  obtain ⟨hA, hS⟩ := songKey_inj (h e1 he1) (h e2 he2) hpq
  rw [Prod.mk.injEq]
  exact ⟨hA, hS⟩

/-- Witness for the corrected Claim C3 on separator-free entries. -/
theorem getUniqueSongCount_spec_witness :
    getUniqueSongCount [⟨"A", "X", 0⟩, ⟨"A", "X", 1⟩, ⟨"B", "Y", 2⟩]
      = (([⟨"A", "X", 0⟩, ⟨"A", "X", 1⟩, ⟨"B", "Y", 2⟩] : List Entry).map fun e =>
          (e.artist, e.song)).toFinset.card :=
  (getUniqueSongCount_spec [⟨"A", "X", 0⟩, ⟨"A", "X", 1⟩, ⟨"B", "Y", 2⟩] (by decide)).2

/-- Counterexample to Claim C3 as stated: two entries with distinct
(artist, song) pairs but colliding concatenated keys are counted as one. -/
theorem getUniqueSongCount_counterexample :
    getUniqueSongCount [⟨"a|||b", "c", 0⟩, ⟨"a", "b|||c", 0⟩] = 1 ∧
    (([⟨"a|||b", "c", 0⟩, ⟨"a", "b|||c", 0⟩] : List Entry).map fun e =>
      (e.artist, e.song)).toFinset.card = 2 :=
  ⟨by decide, by decide⟩

/-- Claim C4: for a positive limit both top-N results are sorted by count
non-increasing; groups of equal count keep the order in which their keys
were first encountered: the result restricted to one count value is a
prefix of the group list in first-seen key order restricted likewise, and
the group lists are keyed exactly by `firstSeen` of the scanned keys. -/
theorem topN_order_spec (entries : List Entry) (limit : Int) (h : 0 < limit) :
    ((getTopSongs entries limit).Pairwise fun a b => b.count ≤ a.count) ∧
    (∀ n : Nat, ((getTopSongs entries limit).filter fun r => r.count == n) <+:
      ((rankedSongs entries).filter fun r => r.count == n)) ∧
    ((countsOf (entries.map songKey)).map Prod.fst = firstSeen (entries.map songKey)) ∧
    ((getTopArtists entries limit).Pairwise fun a b => b.count ≤ a.count) ∧
    (∀ n : Nat, ((getTopArtists entries limit).filter fun r => r.count == n) <+:
      ((rankedArtists entries).filter fun r => r.count == n)) ∧
    ((countsOf (entries.map fun e => e.artist)).map Prod.fst
      = firstSeen (entries.map fun e => e.artist)) := by
  refine ⟨?_, ?_, countsOf_fst _, ?_, ?_, countsOf_fst _⟩
  · exact List.Pairwise.sublist (jsSliceTo_sublist _ limit) (pairwise_sortDesc _ _)
  · intro n
    obtain ⟨k, hk⟩ := jsSliceTo_take (sortDesc (fun r : RankedSong => r.count)
      (rankedSongs entries)) limit
    rw [getTopSongs, hk]
    have hpre := List.take_prefix k (sortDesc (fun r : RankedSong => r.count)
      (rankedSongs entries))
    have hfil := hpre.filter (fun r => r.count == n)
    rw [filter_sortDesc] at hfil
    exact hfil
  · exact List.Pairwise.sublist (jsSliceTo_sublist _ limit) (pairwise_sortDesc _ _)
  · intro n
    obtain ⟨k, hk⟩ := jsSliceTo_take (sortDesc (fun r : RankedArtist => r.count)
      (rankedArtists entries)) limit
    rw [getTopArtists, hk]
    have hpre := List.take_prefix k (sortDesc (fun r : RankedArtist => r.count)
      (rankedArtists entries))
    have hfil := hpre.filter (fun r => r.count == n)
    rw [filter_sortDesc] at hfil
    exact hfil

/-- Witness for Claim C4 at a concrete input with a tie. -/
theorem topN_order_spec_witness :
    (getTopSongs [⟨"A", "X", 0⟩, ⟨"B", "Y", 1⟩] 10).Pairwise
      fun a b => b.count ≤ a.count :=
  (topN_order_spec [⟨"A", "X", 0⟩, ⟨"B", "Y", 1⟩] 10 (by decide)).1

/-- Claim C8: `getHourlyPlayCounts` first restricts the entries through
`getLastNDays`, buckets the kept entries by `ts` truncated to the UTC hour
(key `"YYYY-MM-DDTHH"`, e.g. `"2024-01-01T10"`), and returns exactly the
non-empty buckets (each count is the number of kept entries in that hour,
hence at least 1), strictly ascending by key with no duplicate keys. -/
theorem getHourlyPlayCounts_spec (c : Clock) (entries : List Entry) (days : Int) :
    ((getHourlyPlayCounts c entries days).Pairwise fun a b => a.hour < b.hour) ∧
    (∀ b ∈ getHourlyPlayCounts c entries days,
      b.count = (getLastNDays c entries days).countP
        (fun e => hourKey e.ts == b.hour) ∧ 1 ≤ b.count) ∧
    (∀ e ∈ getLastNDays c entries days,
      ∃ b ∈ getHourlyPlayCounts c entries days, b.hour = hourKey e.ts) ∧
    (∀ t1 t2 : Int, t1 / msPerHour = t2 / msPerHour → hourKey t1 = hourKey t2) ∧
    hourKey 1704103200000 = "2024-01-01T10" := by
  have hresult : getHourlyPlayCounts c entries days
      = sortAscStr (fun b => b.hour)
          ((countsOf ((getLastNDays c entries days).map fun e => hourKey e.ts)).map
            fun p => { hour := p.1, count := p.2 : HourBucket }) := rfl
  set kept := getLastNDays c entries days with hkept
  set keys := kept.map fun e => hourKey e.ts with hkeys
  set buckets := (countsOf keys).map
    (fun p => { hour := p.1, count := p.2 : HourBucket }) with hbuckets
  have hperm : (getHourlyPlayCounts c entries days).Perm buckets := by
    rw [hresult]
    exact perm_sortAscStr _ _
  refine ⟨?_, ?_, ?_, ?_, by decide⟩
  · have hle : (getHourlyPlayCounts c entries days).Pairwise
        fun a b => a.hour ≤ b.hour := by
      rw [hresult]
      exact pairwise_sortAscStr _ _
    have hnodup : (buckets.map fun b => b.hour).Nodup := by
      have hbk : buckets.map (fun b => b.hour) = (countsOf keys).map Prod.fst := by
        rw [hbuckets, List.map_map]
        rfl
      rw [hbk, countsOf_fst]
      exact nodup_firstSeen keys
    have hneq : buckets.Pairwise fun a b => a.hour ≠ b.hour :=
      List.pairwise_map.mp hnodup
    have hneq' : (getHourlyPlayCounts c entries days).Pairwise
        fun a b => a.hour ≠ b.hour :=
      (hperm.pairwise_iff fun hxy => Ne.symm hxy).mpr hneq
    exact (hle.and hneq').imp fun hab => lt_of_le_of_ne hab.1 hab.2
  · intro b hb
    have hbmem : b ∈ buckets := hperm.mem_iff.mp hb
    rw [hbuckets] at hbmem
    rcases List.mem_map.mp hbmem with ⟨p, hp, rfl⟩
    obtain ⟨hcount, hkey⟩ := mem_countsOf hp
    constructor
    · show p.2 = _
      rw [hcount]
      show List.count p.1 keys = _
      show List.countP (fun x => x == p.1) keys = _
      rw [hkeys, List.countP_map]
      rfl
    · show 1 ≤ p.2
      rw [hcount]
      exact List.count_pos_iff.mpr hkey
  · intro e he
    have hkmem : hourKey e.ts ∈ keys := by
      rw [hkeys]
      exact List.mem_map_of_mem _ he
    have hmem := countsOf_mem_key hkmem
    refine ⟨{ hour := hourKey e.ts, count := keys.count (hourKey e.ts) }, ?_, rfl⟩
    apply hperm.mem_iff.mpr
    rw [hbuckets]
    exact List.mem_map_of_mem _ hmem
  · intro t1 t2 ht
    simp only [hourKey]
    rw [ht]

/-- Witness for Claim C8: the count of a concrete bucket of a concrete
two-entry input equals the number of kept entries in that UTC hour. -/
theorem getHourlyPlayCounts_spec_witness :
    (⟨"2024-01-01T09", 1⟩ : HourBucket).count
      = (getLastNDays ⟨1704103200000, 0⟩
          [⟨"A", "X", 1704103200000⟩, ⟨"A", "X", 1704100000000⟩] 7).countP
          (fun e => hourKey e.ts == (⟨"2024-01-01T09", 1⟩ : HourBucket).hour) ∧
    1 ≤ (⟨"2024-01-01T09", 1⟩ : HourBucket).count :=
  (getHourlyPlayCounts_spec ⟨1704103200000, 0⟩
    [⟨"A", "X", 1704103200000⟩, ⟨"A", "X", 1704100000000⟩] 7).2.1
    ⟨"2024-01-01T09", 1⟩ (by decide)

theorem get?_replicate' {α : Type} :
    ∀ (n i : Nat) (a : α),
      (List.replicate n a).get? i = if i < n then some a else none
  | 0, i, a => by simp
  | n + 1, 0, a => by simp [List.replicate]
  | n + 1, i + 1, a => by
    rw [List.replicate, List.get?]
    rw [get?_replicate' n i a]
    by_cases hi : i < n
    · rw [if_pos hi, if_pos (by omega)]
    · rw [if_neg hi, if_neg (by omega)]

theorem bumpAt_length : ∀ (row : List Nat) (h : Nat), (bumpAt row h).length = row.length
  | [], _ => rfl
  | _ :: _, 0 => rfl
  | x :: xs, h + 1 => by
    rw [bumpAt, List.length_cons, List.length_cons, bumpAt_length xs h]

theorem bumpAt_sum : ∀ (row : List Nat) (h : Nat), h < row.length →
    (bumpAt row h).sum = row.sum + 1
  | [], h, hh => by simp at hh
  | x :: xs, 0, _ => by
    rw [bumpAt, List.sum_cons, List.sum_cons]
    omega
  | x :: xs, h + 1, hh => by
    rw [bumpAt, List.sum_cons, List.sum_cons, bumpAt_sum xs h (by simpa using hh)]
    omega

theorem bumpAt_get? : ∀ (row : List Nat) (h j : Nat),
    (bumpAt row h).get? j = if j = h then (row.get? j).map (fun v => v + 1)
      else row.get? j
  | [], h, j => by
    rw [bumpAt]
    split <;> rfl
  | x :: xs, 0, 0 => rfl
  | x :: xs, 0, j + 1 => by
    rw [bumpAt, List.get?, List.get?, if_neg (by omega)]
  | x :: xs, h + 1, 0 => by
    rw [bumpAt, List.get?, List.get?, if_neg (by omega)]
  | x :: xs, h + 1, j + 1 => by
    rw [bumpAt, List.get?, List.get?, bumpAt_get? xs h j]
    by_cases hj : j = h
    · rw [if_pos hj, if_pos (by omega)]
    · rw [if_neg hj, if_neg (by omega)]

theorem bumpCell_get? : ∀ (m : List (List Nat)) (d h i : Nat),
    (bumpCell m d h).get? i =
      if i = d then (m.get? i).map (fun row => bumpAt row h) else m.get? i
  | [], d, h, i => by
    rw [bumpCell]
    split <;> rfl
  | row :: rest, 0, h, 0 => rfl
  | row :: rest, 0, h, i + 1 => by
    rw [bumpCell, List.get?, List.get?, if_neg (by omega)]
  | row :: rest, d + 1, h, 0 => by
    rw [bumpCell, List.get?, List.get?, if_neg (by omega)]
  | row :: rest, d + 1, h, i + 1 => by
    rw [bumpCell, List.get?, List.get?, bumpCell_get? rest d h i]
    by_cases hi : i = d
    · rw [if_pos hi, if_pos (by omega)]
    · rw [if_neg hi, if_neg (by omega)]

theorem shape_bumpCell : ∀ (m : List (List Nat)) (d h : Nat),
    (bumpCell m d h).map (fun row => row.length) = m.map (fun row => row.length)
  | [], _, _ => rfl
  | row :: rest, 0, h => by
    rw [bumpCell, List.map_cons, List.map_cons, bumpAt_length]
  | row :: rest, d + 1, h => by
    rw [bumpCell, List.map_cons, List.map_cons, shape_bumpCell rest d h]

theorem msum_bumpCell : ∀ (m : List (List Nat)) (d h : Nat) (row : List Nat),
    m.get? d = some row → h < row.length →
    matrixSum (bumpCell m d h) = matrixSum m + 1
  | [], d, _, _, hrow, _ => by simp [List.get?] at hrow
  | r :: rest, 0, h, row, hrow, hh => by
    injection hrow with hr
    subst hr
    rw [bumpCell, matrixSum, matrixSum, List.map_cons, List.map_cons,
      List.sum_cons, List.sum_cons, bumpAt_sum r h hh]
    omega
  | r :: rest, d + 1, h, row, hrow, hh => by
    rw [bumpCell, matrixSum, matrixSum, List.map_cons, List.map_cons,
      List.sum_cons, List.sum_cons]
    have := msum_bumpCell rest d h row hrow hh
    rw [matrixSum, matrixSum] at this
    omega

theorem cellAt_bumpCell (m : List (List Nat)) (d h : Nat) (row : List Nat)
    (hrow : m.get? d = some row) (hh : h < row.length) (i j : Nat) :
    cellAt (bumpCell m d h) i j = cellAt m i j + if i = d ∧ j = h then 1 else 0 := by
  rw [cellAt, cellAt, bumpCell_get?]
  by_cases hi : i = d
  · subst hi
    rw [if_pos rfl, hrow]
    show ((bumpAt row h).get? j).getD 0 = _
    rw [bumpAt_get?]
    by_cases hj : j = h
    · subst hj
      rw [if_pos rfl, if_pos ⟨rfl, rfl⟩]
      obtain ⟨v, hv⟩ : ∃ v, row.get? j = some v := by
        rw [List.get?_eq_get (by omega : j < row.length)]
        exact ⟨_, rfl⟩
      show (Option.map (fun v => v + 1) (row.get? j)).getD 0
        = ((row.get? j).getD 0) + 1
      rw [hv]
      rfl
    · rw [if_neg hj, if_neg (fun hc => hj hc.2)]
      rfl
  · rw [if_neg hi, if_neg (fun hc => hi hc.1)]
    rfl

theorem dayIndexOf_lt (c : Clock) (ts : Int) : dayIndexOf c ts < 7 := by
  rw [dayIndexOf]
  have h1 : 0 ≤ (getDay c ts + 6) % 7 := Int.emod_nonneg _ (by omega)
  have h2 : (getDay c ts + 6) % 7 < 7 := Int.emod_lt_of_pos _ (by omega)
  omega

theorem hourOf_lt (c : Clock) (ts : Int) : hourOf c ts < 24 := by
  rw [hourOf, getHours]
  have h1 : 0 ≤ localMs c ts / msPerHour % 24 := Int.emod_nonneg _ (by omega)
  have h2 : localMs c ts / msPerHour % 24 < 24 :=
    Int.emod_lt_of_pos _ (by omega)
  omega

theorem heat_fold (c : Clock) :
    ∀ (es : List Entry) (m : List (List Nat)),
      m.map (fun row => row.length) = List.replicate 7 24 →
      ((es.foldl (fun m e => bumpCell m (dayIndexOf c e.ts) (hourOf c e.ts)) m).map
          (fun row => row.length) = List.replicate 7 24) ∧
      matrixSum (es.foldl (fun m e => bumpCell m (dayIndexOf c e.ts) (hourOf c e.ts)) m)
        = matrixSum m + es.length ∧
      (∀ d h : Nat, d < 7 → h < 24 →
        cellAt (es.foldl (fun m e => bumpCell m (dayIndexOf c e.ts) (hourOf c e.ts)) m) d h
          = cellAt m d h
            + es.countP (fun e => dayIndexOf c e.ts == d && hourOf c e.ts == h))
  | [], m, hS => by
    refine ⟨hS, by simp, ?_⟩
    intro d h _ _
    simp
  | e :: es, m, hS => by
    have hd7 := dayIndexOf_lt c e.ts
    have hh24 := hourOf_lt c e.ts
    obtain ⟨row, hrow, hrowlen⟩ :
        ∃ row, m.get? (dayIndexOf c e.ts) = some row ∧ row.length = 24 := by
      have hmap := congrArg (fun l => List.get? l (dayIndexOf c e.ts)) hS
      simp only [List.get?_map] at hmap
      rw [get?_replicate' 7 _ 24, if_pos hd7] at hmap
      rcases hm : m.get? (dayIndexOf c e.ts) with _ | row
      · rw [hm] at hmap
        simp at hmap
      · rw [hm] at hmap
        refine ⟨row, rfl, ?_⟩
        simpa using hmap
    have hh' : hourOf c e.ts < row.length := by omega
    have hSb : (bumpCell m (dayIndexOf c e.ts) (hourOf c e.ts)).map
        (fun row => row.length) = List.replicate 7 24 := by
      rw [shape_bumpCell]
      exact hS
    obtain ⟨ih1, ih2, ih3⟩ := heat_fold c es
      (bumpCell m (dayIndexOf c e.ts) (hourOf c e.ts)) hSb
    rw [List.foldl_cons]
    refine ⟨ih1, ?_, ?_⟩
    · rw [ih2, msum_bumpCell m _ _ row hrow hh', List.length_cons]
      omega
    · intro d h hd hh
      rw [ih3 d h hd hh, cellAt_bumpCell m _ _ row hrow hh' d h, List.countP_cons]
      by_cases hc : dayIndexOf c e.ts = d ∧ hourOf c e.ts = h
      · have hb : (dayIndexOf c e.ts == d && hourOf c e.ts == h) = true := by
          rw [Bool.and_eq_true, beq_iff_eq, beq_iff_eq]
          exact hc
        rw [if_pos ⟨hc.1.symm, hc.2.symm⟩, if_pos hb]
        omega
      · have hb : ¬ (dayIndexOf c e.ts == d && hourOf c e.ts == h) = true := by
          rw [Bool.and_eq_true, beq_iff_eq, beq_iff_eq]
          exact hc
        rw [if_neg (fun hc' => hc ⟨hc'.1.symm, hc'.2.symm⟩), if_neg hb]
        omega

/-- Claim C6: `generateHeatmapData` always returns a 7-row matrix of 24
cells per row, the sum of all cells equals the number of entries, and the
cell at Monday-indexed day `(getDay + 6) % 7` and local hour `getHours`
counts exactly the entries falling there. -/
theorem generateHeatmapData_spec (c : Clock) (entries : List Entry) :
    (generateHeatmapData c entries).length = 7 ∧
    (∀ row ∈ generateHeatmapData c entries, row.length = 24) ∧
    matrixSum (generateHeatmapData c entries) = entries.length ∧
    (∀ d h : Nat, d < 7 → h < 24 →
      cellAt (generateHeatmapData c entries) d h
        = entries.countP fun e => dayIndexOf c e.ts == d && hourOf c e.ts == h) := by
  have hbase : (List.replicate 7 (List.replicate 24 (0 : Nat))).map
      (fun row => row.length) = List.replicate 7 24 := by
    simp
  obtain ⟨hshape, hsum, hcell⟩ := heat_fold c entries _ hbase
  have hrun : generateHeatmapData c entries
      = entries.foldl (fun m e => bumpCell m (dayIndexOf c e.ts) (hourOf c e.ts))
          (List.replicate 7 (List.replicate 24 0)) := rfl
  have hc0 : ∀ d h : Nat,
      cellAt (List.replicate 7 (List.replicate 24 (0 : Nat))) d h = 0 := by
    intro d h
    show ((((List.replicate 7 (List.replicate 24 (0 : Nat))).get? d).getD []).get?
      h).getD 0 = 0
    rw [get?_replicate']
    by_cases hd : d < 7
    · rw [if_pos hd]
      show (((List.replicate 24 (0 : Nat)).get? h).getD 0) = 0
      rw [get?_replicate']
      by_cases hh : h < 24
      · rw [if_pos hh]
        rfl
      · rw [if_neg hh]
        rfl
    · rw [if_neg hd]
      rfl
  refine ⟨?_, ?_, ?_, ?_⟩
  · have hlen := congrArg List.length hshape
    simp only [List.length_map, List.length_replicate] at hlen
    rw [hrun]
    exact hlen
  · intro row hrow
    rw [hrun] at hrow
    have hmem : row.length ∈ (entries.foldl
        (fun m e => bumpCell m (dayIndexOf c e.ts) (hourOf c e.ts))
        (List.replicate 7 (List.replicate 24 0))).map (fun row => row.length) :=
      List.mem_map_of_mem _ hrow
    rw [hshape] at hmem
    exact List.eq_of_mem_replicate hmem
  · rw [hrun, hsum]
    have h0 : matrixSum (List.replicate 7 (List.replicate 24 (0 : Nat))) = 0 := by
      decide
    omega
  · intro d h hd hh
    rw [hrun, hcell d h hd hh, hc0 d h]
    omega

/-- Witness for Claim C6 at a concrete Monday-morning entry. -/
theorem generateHeatmapData_spec_witness :
    cellAt (generateHeatmapData ⟨0, 0⟩ [⟨"A", "X", 1704103200000⟩]) 0 10
      = ([⟨"A", "X", 1704103200000⟩] : List Entry).countP
          (fun e => dayIndexOf ⟨0, 0⟩ e.ts == 0 && hourOf ⟨0, 0⟩ e.ts == 10) :=
  (generateHeatmapData_spec ⟨0, 0⟩ [⟨"A", "X", 1704103200000⟩]).2.2.2 0 10
    (by decide) (by decide)
